import Mathlib

/-!
Verification of the plugin-usage analysis in `modules/analyze_plugins.py`.

The development embeds the decision logic of the script as Lean functions:

* `Reason` models the provenance strings attached to active plugins
  (`Directly used in '<path>'`, `Bundled core plugin`, `Dependency of '<id>'`).
* `PluginInfo` models one entry of `all_plugins_info`: the optional
  `dependencies` list (a JSON key that may be absent) and the `bundled` flag
  (read with `info.get('bundled', False)`).
* Python dicts are embedded as association lists with first-match lookup;
  insertion appends, and — as in the script — an existing key is never
  re-inserted by the resolver.
* `resolve_dependencies` embeds the breadth-first traversal of
  `resolve_dependencies` (lines 68-83): a work queue seeded with the initial
  keys, each dequeued id expanded through its metadata dependency list, and
  a dependency not yet present inserted with reason `Dependency of '<id>'`
  and enqueued.
* `addBundledPlugins`, `unused_plugins`, `find_used_plugins_in_xml`,
  `cleanedLines` and `installed_plugins_with_versions` embed the
  corresponding steps of `main` and the XML scanner.
-/

inductive Reason where
  | directlyUsed (sourcePath : String)
  | bundledCore
  | dependencyOf (pluginId : String)
deriving DecidableEq, Repr

structure PluginInfo where
  dependencies : Option (List String)
  bundled : Bool
deriving DecidableEq, Repr

abbrev ReasonMap := List (String × Reason)

abbrev MetadataMap := List (String × PluginInfo)

/-- First-match lookup in an association list (embeds Python `dict.get`;
a Python dict has unique keys, for which first match is the match). -/
def lookupKey {α : Type} (k : String) : List (String × α) → Option α
  | [] => none
  | kv :: rest => if kv.1 = k then some kv.2 else lookupKey k rest

/-- Embeds Python `k in d`. -/
def containsKey {α : Type} (l : List (String × α)) (k : String) : Bool :=
  (lookupKey k l).isSome

/-- The dependency ids the traversal would expand for `pid`: the metadata
entry's `dependencies` list when present, nothing otherwise. -/
def depsOf (md : MetadataMap) (pid : String) : List String :=
  match lookupKey pid md with
  | some info => info.dependencies.getD []
  | none => []

/-- One pass of the inner `for dep in plugin_info['dependencies']` loop of
`resolve_dependencies`: each dependency id not already a key of the result
is inserted with reason `Dependency of '<pid>'` and enqueued. -/
def processDeps (pid : String) : List String → ReasonMap → List String → ReasonMap × List String
  | [], resolved, queue => (resolved, queue)
  | dep :: rest, resolved, queue =>
    if containsKey resolved dep then
      processDeps pid rest resolved queue
    else
      processDeps pid rest (resolved ++ [(dep, Reason.dependencyOf pid)]) (queue ++ [dep])

/-- All dependency ids mentioned anywhere in the metadata (with
multiplicity); every id the traversal can ever insert beyond the seeds
comes from this list. -/
def depUniverse (md : MetadataMap) : List String :=
  md.flatMap (fun kv => kv.2.dependencies.getD [])

/-- Number of entries of `U` that are not yet keys of `resolved`. -/
def countNotIn (U : List String) (resolved : ReasonMap) : Nat :=
  (U.filter (fun x => !containsKey resolved x)).length

lemma lookupKey_append {α : Type} (k : String) (l l' : List (String × α)) :
    lookupKey k (l ++ l') = ((lookupKey k l).or (lookupKey k l')) := by
  induction l with
  | nil => simp [lookupKey]
  | cons kv rest ih =>
    by_cases h : kv.1 = k
    · simp [lookupKey, h]
    · simp [lookupKey, h, ih]

lemma containsKey_append {α : Type} (k : String) (l l' : List (String × α)) :
    containsKey (l ++ l') k = (containsKey l k || containsKey l' k) := by
  unfold containsKey
  rw [lookupKey_append]
  cases lookupKey k l <;> simp

lemma containsKey_single {α : Type} (k k' : String) (v : α) :
    containsKey [(k', v)] k = decide (k' = k) := by
  by_cases h : k' = k <;> simp [containsKey, lookupKey, h]

lemma countNotIn_eq_countP (U : List String) (resolved : ReasonMap) :
    countNotIn U resolved = U.countP (fun x => !containsKey resolved x) := by
  simp [countNotIn, List.countP_eq_length_filter]

lemma countNotIn_append_le (U : List String) (resolved : ReasonMap) (l : ReasonMap) :
    countNotIn U (resolved ++ l) ≤ countNotIn U resolved := by
  rw [countNotIn_eq_countP, countNotIn_eq_countP]
  apply List.countP_mono_left
  intro a _ h
  simp only [Bool.not_eq_true', containsKey_append, Bool.or_eq_false_iff] at h ⊢
  exact h.1

lemma countNotIn_insert_lt (U : List String) (resolved : ReasonMap) (d : String)
    (r : Reason) (hd : d ∈ U) (hc : containsKey resolved d = false) :
    countNotIn U (resolved ++ [(d, r)]) < countNotIn U resolved := by
  induction U with
  | nil => cases hd
  | cons u rest ih =>
    rw [countNotIn_eq_countP, countNotIn_eq_countP, List.countP_cons, List.countP_cons]
    by_cases hud : u = d
    · subst hud
      have h1 : containsKey (resolved ++ [(u, r)]) u = true := by
        rw [containsKey_append, containsKey_single]
        simp
      have hmono := countNotIn_append_le rest resolved [(u, r)]
      rw [countNotIn_eq_countP, countNotIn_eq_countP] at hmono
      simp only [h1, hc]
      simp only [Bool.not_true, Bool.not_false]
      simp only [decide_eq_true_eq, if_true, Bool.false_eq_true, if_false, if_pos trivial]
      omega
    · have hsame : containsKey (resolved ++ [(d, r)]) u = containsKey resolved u := by
        rw [containsKey_append, containsKey_single]
        simp [hud, Ne.symm hud]
      have hmem : d ∈ rest := by
        cases hd with
        | head => exact absurd rfl hud
        | tail _ h => exact h
      have hstep := ih hmem
      rw [countNotIn_eq_countP, countNotIn_eq_countP] at hstep
      rw [hsame]
      by_cases h : containsKey resolved u <;> simp [h] <;> omega

lemma processDeps_measure (U : List String) (pid : String) (deps : List String)
    (resolved : ReasonMap) (queue : List String) (hU : ∀ d ∈ deps, d ∈ U) :
    countNotIn U (processDeps pid deps resolved queue).1 +
      (processDeps pid deps resolved queue).2.length ≤
      countNotIn U resolved + queue.length := by
  induction deps generalizing resolved queue with
  | nil => simp [processDeps]
  | cons d rest ih =>
    by_cases hc : containsKey resolved d
    · simp only [processDeps, hc, if_true]
      exact ih resolved queue (fun x hx => hU x (List.mem_cons_of_mem d hx))
    · simp only [processDeps, hc, Bool.false_eq_true, if_false]
      have h1 := countNotIn_insert_lt U resolved d (Reason.dependencyOf pid)
        (hU d (List.mem_cons_self d rest)) (by simpa using hc)
      have h2 := ih (resolved ++ [(d, Reason.dependencyOf pid)]) (queue ++ [d])
        (fun x hx => hU x (List.mem_cons_of_mem d hx))
      simp only [List.length_append, List.length_cons, List.length_nil] at h2 ⊢
      omega

lemma depsOf_subset_universe (md : MetadataMap) (pid : String) (info : PluginInfo)
    (deps : List String) (h1 : lookupKey pid md = some info)
    (h2 : info.dependencies = some deps) : ∀ d ∈ deps, d ∈ depUniverse md := by
  intro d hd
  have hmem : (pid, info) ∈ md := by
    induction md with
    | nil => simp [lookupKey] at h1
    | cons kv rest ih =>
      rw [List.mem_cons]
      by_cases h : kv.1 = pid
      · simp only [lookupKey, h, if_true, Option.some.injEq] at h1
        left
        obtain ⟨a, b⟩ := kv
        simp only at h h1
        rw [h, h1]
      · simp only [lookupKey, h, if_false] at h1
        right
        exact ih h1
  simp only [depUniverse, List.mem_flatMap]
  exact ⟨(pid, info), hmem, by simp [h2, hd]⟩

/-- The `while queue:` loop of `resolve_dependencies` (lines 73-82):
pop an id, look its metadata up, and when a `dependencies` key is present
insert/enqueue the not-yet-seen dependency ids. -/
def resolveLoop (md : MetadataMap) : ReasonMap → List String → ReasonMap
  | resolved, [] => resolved
  | resolved, pid :: rest =>
    match h1 : lookupKey pid md with
    | some info =>
      match h2 : info.dependencies with
      | some deps =>
        resolveLoop md (processDeps pid deps resolved rest).1
          (processDeps pid deps resolved rest).2
      | none => resolveLoop md resolved rest
    | none => resolveLoop md resolved rest
termination_by resolved queue => countNotIn (depUniverse md) resolved + queue.length
decreasing_by
  · have hU := depsOf_subset_universe md pid info deps h1 h2
    have := processDeps_measure (depUniverse md) pid deps resolved rest hU
    simp only [List.length_cons]
    omega
  · simp only [List.length_cons]
    omega
  · simp only [List.length_cons]
    omega

/-- Embeds `resolve_dependencies` (lines 68-83): the result dict starts as a
copy of the seeds, the queue as the seed keys in insertion order. -/
def resolve_dependencies (initial_plugins_reasons : ReasonMap)
    (all_plugins_info : MetadataMap) : ReasonMap :=
  resolveLoop all_plugins_info initial_plugins_reasons
    (initial_plugins_reasons.map Prod.fst)

lemma processDeps_nil (pid : String) (resolved : ReasonMap) (queue : List String) :
    processDeps pid [] resolved queue = (resolved, queue) := rfl

lemma depsOf_eq_of_none (md : MetadataMap) (pid : String)
    (h : lookupKey pid md = none) : depsOf md pid = [] := by
  simp [depsOf, h]

lemma depsOf_eq_of_noDeps (md : MetadataMap) (pid : String) (info : PluginInfo)
    (h1 : lookupKey pid md = some info) (h2 : info.dependencies = none) :
    depsOf md pid = [] := by
  simp [depsOf, h1, h2]

lemma depsOf_eq_of_some (md : MetadataMap) (pid : String) (info : PluginInfo)
    (deps : List String) (h1 : lookupKey pid md = some info)
    (h2 : info.dependencies = some deps) : depsOf md pid = deps := by
  simp [depsOf, h1, h2]

lemma depsOf_subset_universe' (md : MetadataMap) (pid : String) :
    ∀ d ∈ depsOf md pid, d ∈ depUniverse md := by
  intro d hd
  cases h1 : lookupKey pid md with
  | none => rw [depsOf_eq_of_none md pid h1] at hd; cases hd
  | some info =>
    cases h2 : info.dependencies with
    | none => rw [depsOf_eq_of_noDeps md pid info h1 h2] at hd; cases hd
    | some deps =>
      rw [depsOf_eq_of_some md pid info deps h1 h2] at hd
      exact depsOf_subset_universe md pid info deps h1 h2 d hd

lemma resolveLoop_nil (md : MetadataMap) (resolved : ReasonMap) :
    resolveLoop md resolved [] = resolved := by
  simp [resolveLoop]

/-- All three branches of the loop body behave as one uniform step: expand
the popped id through `depsOf` (which is `[]` exactly when the metadata has
no entry or no `dependencies` key, making `processDeps` the identity). -/
lemma resolveLoop_cons (md : MetadataMap) (resolved : ReasonMap) (pid : String)
    (rest : List String) :
    resolveLoop md resolved (pid :: rest) =
      resolveLoop md (processDeps pid (depsOf md pid) resolved rest).1
        (processDeps pid (depsOf md pid) resolved rest).2 := by
  simp only [resolveLoop]
  split
  next info h1 =>
    split
    next deps h2 => rw [depsOf_eq_of_some md pid info deps h1 h2]
    next h2 => rw [depsOf_eq_of_noDeps md pid info h1 h2, processDeps_nil]
  next h1 => rw [depsOf_eq_of_none md pid h1, processDeps_nil]

/-- Induction principle following the loop: the base case is the empty
queue, the step case the uniform `processDeps` expansion. -/
lemma resolveLoop_ind (md : MetadataMap) (motive : ReasonMap → List String → Prop)
    (h0 : ∀ resolved, motive resolved [])
    (hstep : ∀ resolved pid rest,
      motive (processDeps pid (depsOf md pid) resolved rest).1
        (processDeps pid (depsOf md pid) resolved rest).2 →
      motive resolved (pid :: rest)) :
    ∀ resolved queue, motive resolved queue := by
  intro resolved queue
  generalize hm : countNotIn (depUniverse md) resolved + queue.length = n
  induction n using Nat.strong_induction_on generalizing resolved queue with
  | _ n ih =>
    cases queue with
    | nil => exact h0 resolved
    | cons pid rest =>
      apply hstep
      apply ih _ _ _ _ rfl
      subst hm
      have := processDeps_measure (depUniverse md) pid (depsOf md pid) resolved rest
        (depsOf_subset_universe' md pid)
      simp only [List.length_cons]
      omega

lemma lookupKey_append_left {α : Type} (k : String) (l l' : List (String × α)) (v : α)
    (h : lookupKey k l = some v) : lookupKey k (l ++ l') = some v := by
  rw [lookupKey_append, h]
  rfl

lemma processDeps_lookup_mono (pid : String) (deps : List String)
    (resolved : ReasonMap) (queue : List String) (x : String) (v : Reason)
    (h : lookupKey x resolved = some v) :
    lookupKey x (processDeps pid deps resolved queue).1 = some v := by
  induction deps generalizing resolved queue with
  | nil => exact h
  | cons d rest ih =>
    by_cases hc : containsKey resolved d
    · simp only [processDeps, hc, if_true]
      exact ih resolved queue h
    · simp only [processDeps, hc, Bool.false_eq_true, if_false]
      exact ih _ _ (lookupKey_append_left x resolved _ v h)

lemma processDeps_contains_mono (pid : String) (deps : List String)
    (resolved : ReasonMap) (queue : List String) (x : String)
    (h : containsKey resolved x = true) :
    containsKey (processDeps pid deps resolved queue).1 x = true := by
  unfold containsKey at *
  cases hv : lookupKey x resolved with
  | none => rw [hv] at h; cases h
  | some v =>
    rw [processDeps_lookup_mono pid deps resolved queue x v hv]
    rfl

lemma processDeps_queue_mono (pid : String) (deps : List String)
    (resolved : ReasonMap) (queue : List String) (x : String) (h : x ∈ queue) :
    x ∈ (processDeps pid deps resolved queue).2 := by
  induction deps generalizing resolved queue with
  | nil => exact h
  | cons d rest ih =>
    by_cases hc : containsKey resolved d
    · simp only [processDeps, hc, if_true]
      exact ih _ _ h
    · simp only [processDeps, hc, Bool.false_eq_true, if_false]
      exact ih _ _ (List.mem_append_left _ h)

lemma processDeps_lookup_from (pid : String) (deps : List String)
    (resolved : ReasonMap) (queue : List String) (x : String) (v : Reason)
    (h : lookupKey x (processDeps pid deps resolved queue).1 = some v) :
    lookupKey x resolved = some v ∨ (v = Reason.dependencyOf pid ∧ x ∈ deps) := by
  induction deps generalizing resolved queue with
  | nil => exact Or.inl h
  | cons d rest ih =>
    by_cases hc : containsKey resolved d
    · simp only [processDeps, hc, if_true] at h
      rcases ih _ _ h with h' | ⟨hv, hx⟩
      · exact Or.inl h'
      · exact Or.inr ⟨hv, List.mem_cons_of_mem d hx⟩
    · simp only [processDeps, hc, Bool.false_eq_true, if_false] at h
      rcases ih _ _ h with h' | ⟨hv, hx⟩
      · rw [lookupKey_append] at h'
        cases hl : lookupKey x resolved with
        | some w =>
          rw [hl] at h'
          exact Or.inl (by simpa using h')
        | none =>
          rw [hl, Option.none_or] at h'
          by_cases hdx : d = x
          · subst hdx
            simp only [lookupKey, if_true, Option.some.injEq] at h'
            exact Or.inr ⟨h'.symm, List.mem_cons_self d rest⟩
          · simp [lookupKey, hdx] at h'
      · exact Or.inr ⟨hv, List.mem_cons_of_mem d hx⟩

lemma processDeps_contains_from (pid : String) (deps : List String)
    (resolved : ReasonMap) (queue : List String) (x : String)
    (h : containsKey (processDeps pid deps resolved queue).1 x = true) :
    containsKey resolved x = true ∨ x ∈ deps := by
  rcases Option.isSome_iff_exists.mp h with ⟨v, hv⟩
  rcases processDeps_lookup_from pid deps resolved queue x v hv with h' | ⟨_, hx⟩
  · left
    unfold containsKey
    rw [h']
    rfl
  · exact Or.inr hx

lemma processDeps_queue_from (pid : String) (deps : List String)
    (resolved : ReasonMap) (queue : List String) (x : String)
    (h : x ∈ (processDeps pid deps resolved queue).2) : x ∈ queue ∨ x ∈ deps := by
  induction deps generalizing resolved queue with
  | nil => exact Or.inl h
  | cons d rest ih =>
    by_cases hc : containsKey resolved d
    · simp only [processDeps, hc, if_true] at h
      rcases ih _ _ h with h' | h'
      · exact Or.inl h'
      · exact Or.inr (List.mem_cons_of_mem d h')
    · simp only [processDeps, hc, Bool.false_eq_true, if_false] at h
      rcases ih _ _ h with h' | h'
      · rcases List.mem_append.mp h' with h'' | h''
        · exact Or.inl h''
        · rw [List.mem_singleton] at h''
          subst h''
          exact Or.inr (List.mem_cons_self x rest)
      · exact Or.inr (List.mem_cons_of_mem d h')

lemma processDeps_deps_contained (pid : String) (deps : List String)
    (resolved : ReasonMap) (queue : List String) :
    ∀ d ∈ deps, containsKey (processDeps pid deps resolved queue).1 d = true := by
  induction deps generalizing resolved queue with
  | nil => intro d hd; cases hd
  | cons d rest ih =>
    intro x hx
    by_cases hc : containsKey resolved d
    · simp only [processDeps, hc, if_true]
      rcases List.mem_cons.mp hx with h | h
      · subst h
        exact processDeps_contains_mono pid rest resolved queue x hc
      · exact ih _ _ x h
    · simp only [processDeps, hc, Bool.false_eq_true, if_false]
      rcases List.mem_cons.mp hx with h | h
      · subst h
        apply processDeps_contains_mono
        rw [containsKey_append, containsKey_single]
        simp
      · exact ih _ _ x h

lemma processDeps_contains_to_queue (pid : String) (deps : List String)
    (resolved : ReasonMap) (queue : List String) (x : String)
    (h : containsKey (processDeps pid deps resolved queue).1 x = true) :
    containsKey resolved x = true ∨ x ∈ (processDeps pid deps resolved queue).2 := by
  induction deps generalizing resolved queue with
  | nil => exact Or.inl h
  | cons d rest ih =>
    by_cases hc : containsKey resolved d
    · simp only [processDeps, hc, if_true] at h ⊢
      exact ih _ _ h
    · simp only [processDeps, hc, Bool.false_eq_true, if_false] at h ⊢
      rcases ih _ _ h with h' | h'
      · rw [containsKey_append, containsKey_single] at h'
        by_cases hdx : d = x
        · subst hdx
          right
          apply processDeps_queue_mono
          exact List.mem_append_right _ (List.mem_singleton.mpr rfl)
        · left
          simpa [hdx] using h'
      · exact Or.inr h'

lemma containsKey_iff_mem_keys {α : Type} (l : List (String × α)) (k : String) :
    containsKey l k = true ↔ k ∈ l.map Prod.fst := by
  induction l with
  | nil => simp [containsKey, lookupKey]
  | cons kv rest ih =>
    by_cases h : kv.1 = k
    · simp [containsKey, lookupKey, h]
    · simp only [containsKey, lookupKey, h, if_false, List.map_cons, List.mem_cons]
      rw [← ih]
      simp [containsKey, Ne.symm h]

lemma processDeps_queue_closed (pid : String) (deps : List String)
    (resolved : ReasonMap) (queue : List String) (x : String)
    (hq : ∀ y ∈ queue, containsKey resolved y = true)
    (hx : x ∈ (processDeps pid deps resolved queue).2) :
    containsKey (processDeps pid deps resolved queue).1 x = true := by
  rcases processDeps_queue_from pid deps resolved queue x hx with h | h
  · exact processDeps_contains_mono pid deps resolved queue x (hq x h)
  · exact processDeps_deps_contained pid deps resolved queue x h

lemma resolveLoop_lookup_mono (md : MetadataMap) (resolved : ReasonMap)
    (queue : List String) :
    ∀ x v, lookupKey x resolved = some v →
      lookupKey x (resolveLoop md resolved queue) = some v := by
  induction resolved, queue using resolveLoop_ind md with
  | h0 resolved =>
    intro x v h
    rw [resolveLoop_nil]
    exact h
  | hstep resolved pid rest ih =>
    intro x v h
    rw [resolveLoop_cons]
    exact ih x v (processDeps_lookup_mono pid _ resolved rest x v h)

lemma resolveLoop_contains_mono (md : MetadataMap) (resolved : ReasonMap)
    (queue : List String) (x : String) (h : containsKey resolved x = true) :
    containsKey (resolveLoop md resolved queue) x = true := by
  rcases Option.isSome_iff_exists.mp h with ⟨v, hv⟩
  unfold containsKey
  rw [resolveLoop_lookup_mono md resolved queue x v hv]
  rfl

lemma resolveLoop_sound (md : MetadataMap) (R : String → Prop)
    (hR : ∀ pid dep, R pid → dep ∈ depsOf md pid → R dep)
    (resolved : ReasonMap) (queue : List String) :
    (∀ x, containsKey resolved x = true → R x) →
    (∀ x ∈ queue, R x) →
    ∀ x, containsKey (resolveLoop md resolved queue) x = true → R x := by
  induction resolved, queue using resolveLoop_ind md with
  | h0 resolved =>
    intro hres _ x hx
    rw [resolveLoop_nil] at hx
    exact hres x hx
  | hstep resolved pid rest ih =>
    intro hres hq x hx
    rw [resolveLoop_cons] at hx
    refine ih ?_ ?_ x hx
    · intro y hy
      rcases processDeps_contains_from pid _ resolved rest y hy with h | h
      · exact hres y h
      · exact hR pid y (hq pid (List.mem_cons_self pid rest)) h
    · intro y hy
      rcases processDeps_queue_from pid _ resolved rest y hy with h | h
      · exact hq y (List.mem_cons_of_mem pid h)
      · exact hR pid y (hq pid (List.mem_cons_self pid rest)) h

lemma resolveLoop_closed (md : MetadataMap) (resolved : ReasonMap)
    (queue : List String) :
    (∀ p, containsKey resolved p = true →
      p ∈ queue ∨ ∀ d ∈ depsOf md p, containsKey resolved d = true) →
    (∀ x ∈ queue, containsKey resolved x = true) →
    ∀ p, containsKey (resolveLoop md resolved queue) p = true →
      ∀ d ∈ depsOf md p, containsKey (resolveLoop md resolved queue) d = true := by
  induction resolved, queue using resolveLoop_ind md with
  | h0 resolved =>
    intro hcl _ p hp d hd
    rw [resolveLoop_nil] at hp ⊢
    rcases hcl p hp with h | h
    · cases h
    · exact h d hd
  | hstep resolved pid rest ih =>
    intro hcl hq p hp d hd
    rw [resolveLoop_cons] at hp ⊢
    refine ih ?_ ?_ p hp d hd
    · intro q hq'
      rcases processDeps_contains_to_queue pid _ resolved rest q hq' with h | h
      · rcases hcl q h with h' | h'
        · rcases List.mem_cons.mp h' with h'' | h''
          · subst h''
            right
            intro e he
            exact processDeps_deps_contained q _ resolved rest e he
          · left
            exact processDeps_queue_mono pid _ resolved rest q h''
        · right
          intro e he
          exact processDeps_contains_mono pid _ resolved rest e (h' e he)
      · left
        exact h
    · intro y hy
      exact processDeps_queue_closed pid _ resolved rest y
        (fun z hz => hq z (List.mem_cons_of_mem pid hz)) hy

lemma resolveLoop_reason_valid (md : MetadataMap) (resolved : ReasonMap)
    (queue : List String) :
    (∀ x v, lookupKey x resolved = some (Reason.dependencyOf v) →
      containsKey resolved v = true ∧ x ∈ depsOf md v) →
    (∀ x ∈ queue, containsKey resolved x = true) →
    ∀ x v, lookupKey x (resolveLoop md resolved queue) = some (Reason.dependencyOf v) →
      containsKey (resolveLoop md resolved queue) v = true ∧ x ∈ depsOf md v := by
  induction resolved, queue using resolveLoop_ind md with
  | h0 resolved =>
    intro hinv _ x v hx
    rw [resolveLoop_nil] at hx ⊢
    exact hinv x v hx
  | hstep resolved pid rest ih =>
    intro hinv hq x v hx
    rw [resolveLoop_cons] at hx ⊢
    refine ih ?_ ?_ x v hx
    · intro y w hy
      rcases processDeps_lookup_from pid _ resolved rest y (Reason.dependencyOf w) hy
        with h | ⟨hw, hmem⟩
      · obtain ⟨h1, h2⟩ := hinv y w h
        exact ⟨processDeps_contains_mono pid _ resolved rest w h1, h2⟩
      · have hwpid : w = pid := by
          injection hw
        rw [hwpid]
        exact ⟨processDeps_contains_mono pid _ resolved rest pid
          (hq pid (List.mem_cons_self pid rest)), hmem⟩
    · intro y hy
      exact processDeps_queue_closed pid _ resolved rest y
        (fun z hz => hq z (List.mem_cons_of_mem pid hz)) hy

lemma processDeps_length (pid : String) (deps : List String)
    (resolved : ReasonMap) (queue : List String) (U : List String)
    (hU : ∀ d ∈ deps, d ∈ U) :
    (processDeps pid deps resolved queue).1.length +
      countNotIn U (processDeps pid deps resolved queue).1 ≤
      resolved.length + countNotIn U resolved := by
  induction deps generalizing resolved queue with
  | nil => simp [processDeps]
  | cons d rest ih =>
    by_cases hc : containsKey resolved d
    · simp only [processDeps, hc, if_true]
      exact ih resolved queue (fun x hx => hU x (List.mem_cons_of_mem d hx))
    · simp only [processDeps, hc, Bool.false_eq_true, if_false]
      have h1 := countNotIn_insert_lt U resolved d (Reason.dependencyOf pid)
        (hU d (List.mem_cons_self d rest)) (by simpa using hc)
      have h2 := ih (resolved ++ [(d, Reason.dependencyOf pid)]) (queue ++ [d])
        (fun x hx => hU x (List.mem_cons_of_mem d hx))
      simp only [List.length_append, List.length_cons, List.length_nil] at h2 ⊢
      omega

lemma resolveLoop_length (md : MetadataMap) (resolved : ReasonMap)
    (queue : List String) :
    (resolveLoop md resolved queue).length ≤
      resolved.length + countNotIn (depUniverse md) resolved := by
  induction resolved, queue using resolveLoop_ind md with
  | h0 resolved =>
    rw [resolveLoop_nil]
    omega
  | hstep resolved pid rest ih =>
    rw [resolveLoop_cons]
    have hpd := processDeps_length pid (depsOf md pid) resolved rest (depUniverse md)
      (depsOf_subset_universe' md pid)
    omega

/-- The ids reachable from the seed keys through zero or more dependency
edges recorded in the metadata. -/
inductive Reachable (seeds : ReasonMap) (md : MetadataMap) : String → Prop where
  | seed (pid : String) (h : containsKey seeds pid = true) : Reachable seeds md pid
  | step (pid dep : String) (h : Reachable seeds md pid) (hd : dep ∈ depsOf md pid) :
      Reachable seeds md dep

lemma resolve_reachable_of_contains (seeds : ReasonMap) (md : MetadataMap)
    (x : String) (hx : containsKey (resolve_dependencies seeds md) x = true) :
    Reachable seeds md x := by
  refine resolveLoop_sound md (Reachable seeds md) ?_ seeds (seeds.map Prod.fst) ?_ ?_ x hx
  · intro pid dep hp hd
    exact Reachable.step pid dep hp hd
  · intro y hy
    exact Reachable.seed y hy
  · intro y hy
    exact Reachable.seed y ((containsKey_iff_mem_keys seeds y).mpr hy)

lemma resolve_closed (seeds : ReasonMap) (md : MetadataMap) (p : String)
    (hp : containsKey (resolve_dependencies seeds md) p = true) :
    ∀ d ∈ depsOf md p, containsKey (resolve_dependencies seeds md) d = true := by
  refine resolveLoop_closed md seeds (seeds.map Prod.fst) ?_ ?_ p hp
  · intro q hq
    left
    exact (containsKey_iff_mem_keys seeds q).mp hq
  · intro y hy
    exact (containsKey_iff_mem_keys seeds y).mpr hy

lemma resolve_contains_of_reachable (seeds : ReasonMap) (md : MetadataMap)
    (x : String) (hx : Reachable seeds md x) :
    containsKey (resolve_dependencies seeds md) x = true := by
  induction hx with
  | seed p hp => exact resolveLoop_contains_mono md seeds (seeds.map Prod.fst) p hp
  | step p d _ hd ih => exact resolve_closed seeds md p ih d hd

lemma resolve_contains_iff_reachable (seeds : ReasonMap) (md : MetadataMap)
    (x : String) :
    containsKey (resolve_dependencies seeds md) x = true ↔ Reachable seeds md x :=
  ⟨resolve_reachable_of_contains seeds md x, resolve_contains_of_reachable seeds md x⟩

/-- One iteration of the bundled-plugin loop of `main` (lines 180-182). -/
def bundledStep (acc : ReasonMap) (kv : String × PluginInfo) : ReasonMap :=
  if kv.2.bundled && !containsKey acc kv.1 then
    acc ++ [(kv.1, Reason.bundledCore)]
  else acc

/-- Step 4 of `main` (lines 179-182): every metadata entry whose `bundled`
flag is true and whose id is not already a key of the directly-used map is
appended with reason `Bundled core plugin`. -/
def addBundledPlugins (directly_used_plugins_reasons : ReasonMap)
    (all_plugins_info : MetadataMap) : ReasonMap :=
  all_plugins_info.foldl bundledStep directly_used_plugins_reasons

/-- The set of keys of an active-plugin map (`set(active_plugins_reasons.keys())`). -/
def activeKeys (active : ReasonMap) : Finset String :=
  (active.map Prod.fst).toFinset

/-- Step 6 of `main` (line 190): `installed_plugins - active_plugin_ids`. -/
def unused_plugins (installed : Finset String) (active : ReasonMap) : Finset String :=
  installed \ activeKeys active

/-- An XML element: tag, attributes, children. -/
structure XElem where
  tag : String
  attrs : List (String × String)
  children : List XElem

mutual

/-- An element together with all elements below it, in document order. -/
def elemAndDescendants : XElem → List XElem
  | XElem.mk t a c => XElem.mk t a c :: descendantsList c

/-- All elements of a forest, in document order. -/
def descendantsList : List XElem → List XElem
  | [] => []
  | e :: es => elemAndDescendants e ++ descendantsList es

end

/-- The elements matched by `root.findall(".//*")`: every element strictly
below the root, at any depth. -/
def descendants (root : XElem) : List XElem :=
  descendantsList root.children

/-- Embeds `plugin_attr.split('@')[0]`: the characters before the first `@`. -/
def extractPluginId (plugin_attr : String) : String :=
  String.mk (plugin_attr.data.takeWhile (fun c => c ≠ '@'))

/-- One element of the extraction loop of `find_used_plugins_in_xml`
(lines 53-57): `elem.get('plugin')` and, when truthy (present and
non-empty), the dict insertion of the id before the `@`. -/
def scanStep (used_plugins : List String) (elem : XElem) : List String :=
  match lookupKey "plugin" elem.attrs with
  | some plugin_attr =>
    if plugin_attr = "" then used_plugins
    else
      let plugin_id := extractPluginId plugin_attr
      if plugin_id ∈ used_plugins then used_plugins else used_plugins ++ [plugin_id]
  | none => used_plugins

/-- Embeds the extraction loop of `find_used_plugins_in_xml` (lines 53-57)
on an already-parsed document: for each descendant element carrying a
truthy (non-empty) `plugin` attribute, record the id before the `@`.
The returned list holds the dict keys in insertion order. -/
def find_used_plugins_in_xml (root : XElem) : List String :=
  (descendants root).foldl scanStep []


lemma mem_scanStep (acc : List String) (e : XElem) (pid : String) :
    pid ∈ scanStep acc e ↔
      pid ∈ acc ∨ ∃ v, lookupKey "plugin" e.attrs = some v ∧ v ≠ "" ∧
        extractPluginId v = pid := by
  unfold scanStep
  cases hl : lookupKey "plugin" e.attrs with
  | none => simp
  | some v =>
    by_cases hv : v = ""
    · subst hv
      simp
    · simp only [hv, if_false]
      by_cases hmem : extractPluginId v ∈ acc
      · simp only [hmem, if_true]
        constructor
        · intro h
          exact Or.inl h
        · intro h
          rcases h with h | ⟨w, hw, _, hwp⟩
          · exact h
          · rw [Option.some_inj] at hw
            rw [← hwp, ← hw]
            exact hmem
      · simp only [hmem, if_false]
        rw [List.mem_append, List.mem_singleton]
        constructor
        · intro h
          rcases h with h | h
          · exact Or.inl h
          · exact Or.inr ⟨v, rfl, hv, h.symm⟩
        · intro h
          rcases h with h | ⟨w, hw, _, hwp⟩
          · exact Or.inl h
          · rw [Option.some_inj] at hw
            right
            rw [← hwp, ← hw]

lemma mem_scan_foldl (elems : List XElem) (acc : List String) (pid : String) :
    pid ∈ elems.foldl scanStep acc ↔
      pid ∈ acc ∨ ∃ e ∈ elems, ∃ v, lookupKey "plugin" e.attrs = some v ∧ v ≠ "" ∧
        extractPluginId v = pid := by
  induction elems generalizing acc with
  | nil => simp
  | cons e rest ih =>
    rw [List.foldl_cons, ih, mem_scanStep]
    constructor
    · intro h
      rcases h with (h | ⟨v, hv⟩) | ⟨e2, he2, hrest⟩
      · exact Or.inl h
      · exact Or.inr ⟨e, List.mem_cons_self e rest, v, hv⟩
      · exact Or.inr ⟨e2, List.mem_cons_of_mem e he2, hrest⟩
    · intro h
      rcases h with h | ⟨e2, he2, hrest⟩
      · exact Or.inl (Or.inl h)
      · rcases List.mem_cons.mp he2 with he | he
        · subst he
          exact Or.inl (Or.inr hrest)
        · exact Or.inr ⟨e2, he, hrest⟩

lemma takeWhile_eq_self_of {α : Type} (p : α → Bool) (l : List α)
    (h : ∀ x ∈ l, p x = true) : l.takeWhile p = l := by
  induction l with
  | nil => rfl
  | cons a rest ih =>
    have ha := h a (List.mem_cons_self a rest)
    have hr := ih (fun x hx => h x (List.mem_cons_of_mem a hx))
    simp [List.takeWhile_cons, ha, hr]

lemma takeWhile_append_stop {α : Type} (p : α → Bool) (l1 : List α) (c : α)
    (l2 : List α) (h1 : ∀ x ∈ l1, p x = true) (h2 : p c = false) :
    (l1 ++ c :: l2).takeWhile p = l1 := by
  induction l1 with
  | nil => simp [List.takeWhile_cons, h2]
  | cons a rest ih =>
    rw [List.cons_append, List.takeWhile_cons, h1 a (List.mem_cons_self a rest)]
    simp only [if_true]
    rw [ih (fun x hx => h1 x (List.mem_cons_of_mem a hx))]

/-- Embeds the `try/except ET.ParseError` wrapper of
`find_used_plugins_in_xml` (lines 50-61): `none` stands for a file whose
document failed to parse, for which the function prints a warning and
returns the empty dict. -/
def find_used_plugins_in_file (parsed : Option XElem) : List String :=
  match parsed with
  | none => []
  | some root => find_used_plugins_in_xml root

/-- Scanning a collection of files is one scan per file. -/
def scanFiles (files : List (Option XElem)) : List (List String) :=
  files.map find_used_plugins_in_file

/-- Embeds Python `line.strip()`: drop leading and trailing whitespace. -/
def pyStrip (line : String) : String :=
  String.mk
    (((line.data.dropWhile Char.isWhitespace).reverse.dropWhile Char.isWhitespace).reverse)

/-- Embeds Python `line.startswith('#')`: the very first character of the
raw, unstripped line is `#`. -/
def startsWithHash (line : String) : Bool :=
  match line.data with
  | [] => false
  | c :: _ => c = '#'

/-- Embeds line 99 of `main`: keep the lines whose stripped text is
non-empty and which do not start (unstripped) with `#`, stripped. -/
def installed_plugins_with_versions (lines : List String) : List String :=
  (lines.filter (fun line => pyStrip line ≠ "" && !startsWithHash line)).map pyStrip

/-- Embeds `p.split(':')[0]`: the characters before the first `:`. -/
def splitColonHead (p : String) : String :=
  String.mk (p.data.takeWhile (fun c => c ≠ ':'))

/-- Embeds line 100 of `main`: the installed plugin ids. -/
def installed_plugins (lines : List String) : List String :=
  (installed_plugins_with_versions lines).map splitColonHead

/-- Python dict assignment `m[k] = v`: replace the value if the key is
present, append otherwise. -/
def insertOrReplace (m : List (String × String)) (k v : String) :
    List (String × String) :=
  if containsKey m k then m.map (fun kv => if kv.1 = k then (k, v) else kv)
  else m ++ [(k, v)]

/-- Embeds line 193 of `main`: the dict comprehension
`{p.split(':')[0]: p for p in installed_plugins_with_versions}`
(a later entry for the same id overwrites an earlier one). -/
def plugin_version_map (installed_with_versions : List String) :
    List (String × String) :=
  installed_with_versions.foldl (fun m p => insertOrReplace m (splitColonHead p) p) []

/-- The provenance strings the script builds (lines 168, 182, 81). -/
def reasonString : Reason → String
  | Reason.directlyUsed path => "Directly used in '" ++ path ++ "'"
  | Reason.bundledCore => "Bundled core plugin"
  | Reason.dependencyOf pid => "Dependency of '" ++ pid ++ "'"

/-- The `id:version` line written for an active plugin (lines 203-204):
the entry of the installed list when the id is known, else `id:latest`. -/
def entryLine (version_map : List (String × String)) (plugin_id : String) : String :=
  (lookupKey plugin_id version_map).getD (plugin_id ++ ":latest")

/-- The comment line written before an active plugin (lines 202, 206). -/
def commentLine (active : ReasonMap) (plugin_id : String) : String :=
  "# Kept because: " ++ ((lookupKey plugin_id active).map reasonString).getD "Unknown reason"

/-- Embeds `sorted(list(active_plugin_ids))` (line 199): the distinct
active keys in ascending order. -/
def sortedActiveIds (active : ReasonMap) : List String :=
  List.insertionSort (· ≤ ·) (active.map Prod.fst).dedup

/-- Embeds the cleaned-plugins output (lines 195-207) as a list of lines:
the two header lines and a blank, then for each active plugin in sorted
order its comment line, its entry line and a blank. -/
def cleanedLines (active : ReasonMap) (installed_with_versions : List String) :
    List String :=
  ["# Jenkins Plugin Analysis Report",
   "# Unused plugins have been removed. Kept plugins include a comment explaining why.",
   ""] ++
  (sortedActiveIds active).flatMap (fun plugin_id =>
    [commentLine active plugin_id,
     entryLine (plugin_version_map installed_with_versions) plugin_id, ""])

lemma lookupKey_mem {α : Type} (k : String) (l : List (String × α)) (v : α)
    (h : lookupKey k l = some v) : (k, v) ∈ l := by
  induction l with
  | nil => simp [lookupKey] at h
  | cons kv rest ih =>
    rw [List.mem_cons]
    by_cases hk : kv.1 = k
    · simp only [lookupKey, hk, if_true, Option.some.injEq] at h
      left
      obtain ⟨a, b⟩ := kv
      simp only at hk h
      rw [hk, h]
    · simp only [lookupKey, hk, if_false] at h
      right
      exact ih h

lemma bundledStep_lookup_mono (acc : ReasonMap) (kv : String × PluginInfo)
    (x : String) (v : Reason) (h : lookupKey x acc = some v) :
    lookupKey x (bundledStep acc kv) = some v := by
  unfold bundledStep
  split
  · exact lookupKey_append_left x acc _ v h
  · exact h

lemma foldl_bundled_lookup_mono (entries : MetadataMap) (acc : ReasonMap)
    (x : String) (v : Reason) (h : lookupKey x acc = some v) :
    lookupKey x (entries.foldl bundledStep acc) = some v := by
  induction entries generalizing acc with
  | nil => exact h
  | cons kv rest ih =>
    exact ih (bundledStep acc kv) (bundledStep_lookup_mono acc kv x v h)

lemma foldl_bundled_contains_mono (entries : MetadataMap) (acc : ReasonMap)
    (x : String) (h : containsKey acc x = true) :
    containsKey (entries.foldl bundledStep acc) x = true := by
  rcases Option.isSome_iff_exists.mp h with ⟨v, hv⟩
  unfold containsKey
  rw [foldl_bundled_lookup_mono entries acc x v hv]
  rfl

lemma addBundled_contains_of_mem (entries : MetadataMap) (acc : ReasonMap)
    (pid : String) (info : PluginInfo) (hmem : (pid, info) ∈ entries)
    (hb : info.bundled = true) :
    containsKey (entries.foldl bundledStep acc) pid = true := by
  induction entries generalizing acc with
  | nil => cases hmem
  | cons kv rest ih =>
    rcases List.mem_cons.mp hmem with h | h
    · have hc : containsKey (bundledStep acc kv) pid = true := by
        unfold bundledStep
        split
        next =>
          rw [containsKey_append, containsKey_single]
          have : kv.1 = pid := by rw [← h]
          simp [this]
        next hcond =>
          have hkb : kv.2.bundled = true := by rw [← h]; exact hb
          rw [hkb] at hcond
          simp only [Bool.true_and, Bool.not_eq_true', Bool.not_eq_false] at hcond
          have : kv.1 = pid := by rw [← h]
          rw [← this]
          simpa using hcond
      exact foldl_bundled_contains_mono rest (bundledStep acc kv) pid hc
    · exact ih (bundledStep acc kv) h

lemma addBundled_lookup_from (entries : MetadataMap) (acc : ReasonMap)
    (x : String) (v : Reason)
    (h : lookupKey x (entries.foldl bundledStep acc) = some v) :
    lookupKey x acc = some v ∨ v = Reason.bundledCore := by
  induction entries generalizing acc with
  | nil => exact Or.inl h
  | cons kv rest ih =>
    rcases ih (bundledStep acc kv) h with h' | h'
    · unfold bundledStep at h'
      split at h'
      · rw [lookupKey_append] at h'
        cases hl : lookupKey x acc with
        | some w =>
          rw [hl] at h'
          exact Or.inl (by simpa using h')
        | none =>
          rw [hl, Option.none_or] at h'
          by_cases hkx : kv.1 = x
          · simp only [lookupKey, hkx, if_true, Option.some.injEq] at h'
            exact Or.inr h'.symm
          · simp [lookupKey, hkx] at h'
      · exact Or.inl h'
    · exact Or.inr h'

/-- C1: `resolve` returns exactly the ids reachable from the seed keys
through zero or more dependency edges recorded in the metadata — the unique
minimal superset of the seeds closed under the dependency relation.  An id
with no metadata entry contributes no outgoing edges (`depsOf` is empty for
it) but is in the result when it is a seed (`Reachable.seed`), and no id
outside the reachable set appears in the result (the forward direction of
the equivalence).  The theorem holds for every metadata mapping, cyclic or
not, hence in particular for acyclic ones. -/
theorem C1_resolve_is_reachable_closure (seeds : ReasonMap) (md : MetadataMap)
    (pid : String) :
    containsKey (resolve_dependencies seeds md) pid = true ↔ Reachable seeds md pid :=
  resolve_contains_iff_reachable seeds md pid

/-- C2 counterexample: with one seed `A` and one metadata entry
`A -> [B, C]`, the result has three keys while `|seeds| + |metadata| = 2`,
so the claimed bound `|seeds| + |metadata|` fails. -/
theorem C2_counterexample :
    ¬ ((resolve_dependencies [("A", Reason.directlyUsed "x")]
          [("A", ⟨some ["B", "C"], false⟩)]).length ≤
        ([("A", Reason.directlyUsed "x")] : ReasonMap).length +
          ([("A", (⟨some ["B", "C"], false⟩ : PluginInfo))] : MetadataMap).length) := by
  have hres : resolve_dependencies [("A", Reason.directlyUsed "x")]
      [("A", ⟨some ["B", "C"], false⟩)] =
      [("A", Reason.directlyUsed "x"), ("B", Reason.dependencyOf "A"),
       ("C", Reason.dependencyOf "A")] := by
    simp [resolve_dependencies, resolveLoop, processDeps, containsKey, lookupKey]
  rw [hres]
  simp

/-- C2 amended: `resolve` terminates on every input, including cyclic
metadata (it is a total function, defined by well-founded recursion on
`countNotIn (depUniverse md) resolved + queue.length`), and the number of
entries of the result is at most `|seeds|` plus the total number of
dependency ids listed across all metadata entries (`|depUniverse md|`).
The original bound `|seeds| + |metadata|` is too small because one
metadata entry may list several dependency ids. -/
theorem C2_resolve_terminates_bounded (seeds : ReasonMap) (md : MetadataMap) :
    (resolve_dependencies seeds md).length ≤ seeds.length + (depUniverse md).length := by
  have h := resolveLoop_length md seeds (seeds.map Prod.fst)
  have h2 : countNotIn (depUniverse md) seeds ≤ (depUniverse md).length :=
    List.length_filter_le _ _
  unfold resolve_dependencies
  omega

/-- C3: once an id is present with a reason — in the seeds or in any
intermediate state `resolved` of the traversal — that reason survives
unchanged to the final result (the resolver only ever appends entries for
ids that are not yet keys); in particular every seed id keeps its seed
reason in the result of `resolve`. -/
theorem C3_reason_never_overwritten (md : MetadataMap) (resolved : ReasonMap)
    (queue : List String) (seeds : ReasonMap) (pid : String) (r : Reason) :
    (lookupKey pid resolved = some r →
      lookupKey pid (resolveLoop md resolved queue) = some r) ∧
    (lookupKey pid seeds = some r →
      lookupKey pid (resolve_dependencies seeds md) = some r) :=
  ⟨resolveLoop_lookup_mono md resolved queue pid r,
   resolveLoop_lookup_mono md seeds (seeds.map Prod.fst) pid r⟩

/-- C3 witness: the seed reason of `A` survives resolution over metadata
containing the cycle `A -> A`. -/
theorem C3_witness :
    lookupKey "A" (resolve_dependencies [("A", Reason.directlyUsed "f")]
      [("A", ⟨some ["A"], false⟩)]) = some (Reason.directlyUsed "f") :=
  (C3_reason_never_overwritten [("A", ⟨some ["A"], false⟩)] [] []
    [("A", Reason.directlyUsed "f")] "A" (Reason.directlyUsed "f")).2 rfl

/-- C4: when every seed carries a `DirectlyUsed` or `BundledCore` reason,
every key of the result whose reason is `DependencyOf x` is reachable from
the seeds through zero or more metadata dependency edges, `x` is itself a
key of the result, and the key occurs in `x`'s metadata dependency list —
the resolver never assigns a reason outside this closure. -/
theorem C4_dependency_reasons_within_closure (seeds : ReasonMap) (md : MetadataMap)
    (hseeds : ∀ p r, lookupKey p seeds = some r →
      (∃ path, r = Reason.directlyUsed path) ∨ r = Reason.bundledCore)
    (pid x : String)
    (h : lookupKey pid (resolve_dependencies seeds md) = some (Reason.dependencyOf x)) :
    Reachable seeds md pid ∧
    containsKey (resolve_dependencies seeds md) x = true ∧
    pid ∈ depsOf md x := by
  have hrv := resolveLoop_reason_valid md seeds (seeds.map Prod.fst) ?_ ?_ pid x h
  · refine ⟨?_, hrv.1, hrv.2⟩
    apply resolve_reachable_of_contains
    unfold containsKey
    rw [h]
    rfl
  · intro y v hy
    rcases hseeds y _ hy with ⟨path, hp⟩ | hp
    · simp at hp
    · simp at hp
  · intro y hy
    exact (containsKey_iff_mem_keys seeds y).mpr hy

/-- C4 witness: with seed `A` (directly used) and metadata `A -> [B]`,
the entry `B : DependencyOf A` is reachable, `A` is in the result, and
`B` occurs in `A`'s dependency list. -/
theorem C4_witness :
    Reachable [("A", Reason.directlyUsed "f")] [("A", ⟨some ["B"], false⟩)] "B" ∧
    containsKey (resolve_dependencies [("A", Reason.directlyUsed "f")]
      [("A", ⟨some ["B"], false⟩)]) "A" = true ∧
    "B" ∈ depsOf [("A", ⟨some ["B"], false⟩)] "A" := by
  refine C4_dependency_reasons_within_closure
    [("A", Reason.directlyUsed "f")] [("A", ⟨some ["B"], false⟩)] ?_ "B" "A" ?_
  · intro p r hp
    by_cases h : "A" = p
    · simp only [lookupKey, h, if_true, Option.some.injEq] at hp
      exact Or.inl ⟨"f", hp.symm⟩
    · simp [lookupKey, h] at hp
  · simp [resolve_dependencies, resolveLoop, processDeps, containsKey, lookupKey]


/-- C7 counterexample: `root.findall(".//*[@plugin]")` matches only
elements strictly below the root, so a `plugin` attribute on the root
element itself — an element of the document carrying the attribute — is
not extracted: the scan of a document whose root carries
`plugin="git@4.0"` is empty, although the substring before the `@` is
`git`. -/
theorem C7_counterexample :
    lookupKey "plugin" (XElem.mk "project" [("plugin", "git@4.0")] []).attrs =
      some "git@4.0" ∧
    extractPluginId "git@4.0" = "git" ∧
    find_used_plugins_in_xml (XElem.mk "project" [("plugin", "git@4.0")] []) = [] := by
  refine ⟨rfl, by decide, rfl⟩

/-- C7 amended: the scanner extracts a plugin id from the non-empty
`plugin` attribute of every element strictly below the root (the root
element itself is not scanned, and an empty attribute value is skipped as
falsy), and nothing else; the extracted id is the substring of the
attribute value before the first `@`, and a value containing no `@` is
kept verbatim. -/
theorem C7_scanner_extracts_descendants (root : XElem) (pid v a b : String) :
    (pid ∈ find_used_plugins_in_xml root ↔
      ∃ e ∈ descendants root, ∃ w, lookupKey "plugin" e.attrs = some w ∧ w ≠ "" ∧
        extractPluginId w = pid) ∧
    ('@' ∉ v.data → extractPluginId v = v) ∧
    ('@' ∉ a.data → extractPluginId (a ++ "@" ++ b) = a) := by
  refine ⟨?_, ?_, ?_⟩
  · unfold find_used_plugins_in_xml
    rw [mem_scan_foldl]
    simp
  · intro hv
    unfold extractPluginId
    rw [takeWhile_eq_self_of _ v.data ?_]
    · intro x hx
      simp only [decide_eq_true_eq]
      intro heq
      rw [heq] at hx
      exact hv hx
  · intro ha
    unfold extractPluginId
    have hdata : (a ++ "@" ++ b).data = a.data ++ '@' :: b.data := by
      simp [String.data_append]
    rw [hdata, takeWhile_append_stop _ a.data '@' b.data ?_ (by simp)]
    · intro x hx
      simp only [decide_eq_true_eq]
      intro heq
      rw [heq] at hx
      exact ha hx

/-- C7 witness: a `plugin` attribute on a child element is extracted, with
the id taken before the `@`; ids without `@` stay verbatim. -/
theorem C7_witness :
    ("git" ∈ find_used_plugins_in_xml
        (XElem.mk "project" [] [XElem.mk "scm" [("plugin", "git@4.0")] []]) ↔
      ∃ e ∈ descendants (XElem.mk "project" [] [XElem.mk "scm" [("plugin", "git@4.0")] []]),
        ∃ w, lookupKey "plugin" e.attrs = some w ∧ w ≠ "" ∧ extractPluginId w = "git") ∧
    extractPluginId "workflow-job" = "workflow-job" ∧
    extractPluginId ("git" ++ "@" ++ "4.0") = "git" := by
  have h := C7_scanner_extracts_descendants
    (XElem.mk "project" [] [XElem.mk "scm" [("plugin", "git@4.0")] []])
    "git" "workflow-job" "git" "4.0"
  exact ⟨h.1, h.2.1 (by decide), h.2.2 (by decide)⟩

/-- C9: a file whose document fails to parse (modelled as `none`)
contributes an empty plugin set, and scanning a collection of files is
file-wise: the failing file leaves the result of every other file unchanged,
and scanning is a total function, so no failure aborts the run. -/
theorem C9_parse_failure_nonfatal (files1 files2 : List (Option XElem)) :
    find_used_plugins_in_file none = [] ∧
    scanFiles (files1 ++ none :: files2) =
      scanFiles files1 ++ [] :: scanFiles files2 := by
  constructor
  · rfl
  · simp [scanFiles, find_used_plugins_in_file]

/-- C5: a plugin whose metadata entry has `bundled = true` is always a key
of the active set produced by seed construction (`addBundledPlugins`)
followed by `resolve`, whatever the directly-used seeds are; when it is
not already a directly-used seed its reason is `Bundled core plugin`; and
it never appears in the unused set. -/
theorem C5_bundled_always_active (directly : ReasonMap) (md : MetadataMap)
    (installed : Finset String) (pid : String) (info : PluginInfo)
    (hmd : lookupKey pid md = some info) (hb : info.bundled = true) :
    containsKey (resolve_dependencies (addBundledPlugins directly md) md) pid = true ∧
    (containsKey directly pid = false →
      lookupKey pid (resolve_dependencies (addBundledPlugins directly md) md) =
        some Reason.bundledCore) ∧
    pid ∉ unused_plugins installed (resolve_dependencies (addBundledPlugins directly md) md) := by
  have hseed : containsKey (addBundledPlugins directly md) pid = true :=
    addBundled_contains_of_mem md directly pid info (lookupKey_mem pid md info hmd) hb
  have hres : containsKey (resolve_dependencies (addBundledPlugins directly md) md) pid = true :=
    resolveLoop_contains_mono md (addBundledPlugins directly md)
      ((addBundledPlugins directly md).map Prod.fst) pid hseed
  refine ⟨hres, ?_, ?_⟩
  · intro hnd
    rcases Option.isSome_iff_exists.mp hseed with ⟨v, hv⟩
    have hvb : v = Reason.bundledCore := by
      rcases addBundled_lookup_from md directly pid v hv with h' | h'
      · rw [containsKey] at hnd
        rw [h'] at hnd
        cases hnd
      · exact h'
    subst hvb
    exact resolveLoop_lookup_mono md (addBundledPlugins directly md)
      ((addBundledPlugins directly md).map Prod.fst) pid Reason.bundledCore hv
  · have hmemk : pid ∈ activeKeys (resolve_dependencies (addBundledPlugins directly md) md) := by
      unfold activeKeys
      rw [List.mem_toFinset]
      exact (containsKey_iff_mem_keys _ pid).mp hres
    unfold unused_plugins
    exact Finset.not_mem_sdiff_of_mem_right hmemk

/-- C5 witness: a bundled plugin `core`, referenced by no configuration,
is active with reason `BundledCore` and is not unused. -/
theorem C5_witness :
    containsKey (resolve_dependencies (addBundledPlugins [] [("core", ⟨none, true⟩)])
      [("core", ⟨none, true⟩)]) "core" = true ∧
    (containsKey ([] : ReasonMap) "core" = false →
      lookupKey "core" (resolve_dependencies (addBundledPlugins [] [("core", ⟨none, true⟩)])
        [("core", ⟨none, true⟩)]) = some Reason.bundledCore) ∧
    "core" ∉ unused_plugins {"core"}
      (resolve_dependencies (addBundledPlugins [] [("core", ⟨none, true⟩)])
        [("core", ⟨none, true⟩)]) :=
  C5_bundled_always_active [] [("core", ⟨none, true⟩)] {"core"} "core" ⟨none, true⟩ rfl rfl

/-- C6: `unused` is literally the set difference `installed - keys(active)`;
it is disjoint from the active keys; removing it from `installed` leaves
exactly `installed ∩ keys(active)`; and it depends on the active map only
through its key set, hence not on entry order.  As a Lean function on a
`Finset` and a map it is pure and total by construction. -/
theorem C6_unused_set_algebra (installed : Finset String) (active active' : ReasonMap) :
    unused_plugins installed active = installed \ activeKeys active ∧
    Disjoint (unused_plugins installed active) (activeKeys active) ∧
    installed \ unused_plugins installed active = installed ∩ activeKeys active ∧
    (activeKeys active = activeKeys active' →
      unused_plugins installed active = unused_plugins installed active') := by
  refine ⟨rfl, Finset.sdiff_disjoint, Finset.sdiff_sdiff_self_left installed (activeKeys active), ?_⟩
  intro h
  unfold unused_plugins
  rw [h]

/-- C6 witness: two active maps with the same key set in different order
give the same unused set, disjoint from the active keys. -/
theorem C6_witness :
    unused_plugins {"A", "B", "D"} [("A", Reason.bundledCore), ("B", Reason.bundledCore)] =
      ({"A", "B", "D"} : Finset String) \
        activeKeys [("A", Reason.bundledCore), ("B", Reason.bundledCore)] ∧
    Disjoint (unused_plugins {"A", "B", "D"}
        [("A", Reason.bundledCore), ("B", Reason.bundledCore)])
      (activeKeys [("A", Reason.bundledCore), ("B", Reason.bundledCore)]) ∧
    ({"A", "B", "D"} : Finset String) \
        unused_plugins {"A", "B", "D"} [("A", Reason.bundledCore), ("B", Reason.bundledCore)] =
      ({"A", "B", "D"} : Finset String) ∩
        activeKeys [("A", Reason.bundledCore), ("B", Reason.bundledCore)] ∧
    (activeKeys [("A", Reason.bundledCore), ("B", Reason.bundledCore)] =
        activeKeys [("B", Reason.directlyUsed "f"), ("A", Reason.bundledCore)] →
      unused_plugins {"A", "B", "D"} [("A", Reason.bundledCore), ("B", Reason.bundledCore)] =
        unused_plugins {"A", "B", "D"} [("B", Reason.directlyUsed "f"), ("A", Reason.bundledCore)]) :=
  C6_unused_set_algebra {"A", "B", "D"} [("A", Reason.bundledCore), ("B", Reason.bundledCore)]
    [("B", Reason.directlyUsed "f"), ("A", Reason.bundledCore)]

lemma lookup_mapReplace_self (m : List (String × String)) (k v : String)
    (hc : containsKey m k = true) :
    lookupKey k (m.map (fun kv => if kv.1 = k then (k, v) else kv)) = some v := by
  induction m with
  | nil => simp [containsKey, lookupKey] at hc
  | cons kv rest ih =>
    by_cases hk : kv.1 = k
    · simp [lookupKey, hk]
    · have hc' : containsKey rest k = true := by
        simp only [containsKey, lookupKey, hk, if_false] at hc
        exact hc
      simp only [List.map_cons, if_neg hk]
      simp only [lookupKey, hk, if_false]
      exact ih hc'

lemma lookup_mapReplace_other (m : List (String × String)) (k v x : String)
    (hx : x ≠ k) :
    lookupKey x (m.map (fun kv => if kv.1 = k then (k, v) else kv)) = lookupKey x m := by
  induction m with
  | nil => rfl
  | cons kv rest ih =>
    by_cases hk : kv.1 = k
    · simp only [List.map_cons, if_pos hk, lookupKey]
      rw [if_neg (fun h => hx h.symm), if_neg (fun h => hx (hk ▸ h).symm)]
      exact ih
    · simp only [List.map_cons, if_neg hk, lookupKey]
      by_cases hkx : kv.1 = x
      · simp [hkx]
      · simp only [hkx, if_false]
        exact ih

lemma insertOrReplace_lookup_self (m : List (String × String)) (k v : String) :
    lookupKey k (insertOrReplace m k v) = some v := by
  unfold insertOrReplace
  split
  next hc => exact lookup_mapReplace_self m k v hc
  next hc =>
    rw [lookupKey_append]
    cases hl : lookupKey k m with
    | some w =>
      exfalso
      apply hc
      unfold containsKey
      rw [hl]
      rfl
    | none =>
      rw [Option.none_or]
      simp [lookupKey]

lemma insertOrReplace_lookup_other (m : List (String × String)) (k v x : String)
    (hx : x ≠ k) : lookupKey x (insertOrReplace m k v) = lookupKey x m := by
  unfold insertOrReplace
  split
  next => exact lookup_mapReplace_other m k v x hx
  next =>
    rw [lookupKey_append]
    cases hl : lookupKey x m with
    | some w => rfl
    | none =>
      rw [Option.none_or]
      simp only [lookupKey]
      rw [if_neg (fun h => hx h.symm)]

lemma insertOrReplace_contains_mono (m : List (String × String)) (k v x : String)
    (h : containsKey m x = true) : containsKey (insertOrReplace m k v) x = true := by
  by_cases hx : x = k
  · subst hx
    unfold containsKey
    rw [insertOrReplace_lookup_self]
    rfl
  · unfold containsKey
    rw [insertOrReplace_lookup_other m k v x hx]
    exact h

lemma pvm_foldl_lookup (lines : List String) (acc : List (String × String))
    (x v : String)
    (h : lookupKey x
      (lines.foldl (fun m p => insertOrReplace m (splitColonHead p) p) acc) = some v) :
    lookupKey x acc = some v ∨ (v ∈ lines ∧ splitColonHead v = x) := by
  induction lines generalizing acc with
  | nil => exact Or.inl h
  | cons p rest ih =>
    rw [List.foldl_cons] at h
    rcases ih _ h with h' | ⟨hv, hx⟩
    · by_cases hxp : x = splitColonHead p
      · rw [hxp, insertOrReplace_lookup_self] at h'
        rw [Option.some_inj] at h'
        right
        refine ⟨?_, ?_⟩
        · rw [← h']
          exact List.mem_cons_self p rest
        · rw [← h', ← hxp]
      · rw [insertOrReplace_lookup_other acc _ p x hxp] at h'
        exact Or.inl h'
    · exact Or.inr ⟨List.mem_cons_of_mem p hv, hx⟩

lemma pvm_foldl_contains (lines : List String) (acc : List (String × String))
    (pid : String)
    (h : containsKey acc pid = true ∨ ∃ line ∈ lines, splitColonHead line = pid) :
    containsKey
      (lines.foldl (fun m p => insertOrReplace m (splitColonHead p) p) acc) pid = true := by
  induction lines generalizing acc with
  | nil =>
    rcases h with h | ⟨l, hl, _⟩
    · exact h
    · cases hl
  | cons p rest ih =>
    rw [List.foldl_cons]
    apply ih
    rcases h with h | ⟨l, hl, hlid⟩
    · exact Or.inl (insertOrReplace_contains_mono acc (splitColonHead p) p pid h)
    · rcases List.mem_cons.mp hl with he | he
      · left
        rw [← hlid, ← he]
        unfold containsKey
        rw [insertOrReplace_lookup_self]
        rfl
      · exact Or.inr ⟨l, he, hlid⟩

lemma pvm_lookup_none (lines : List String) (pid : String)
    (h : ∀ line ∈ lines, splitColonHead line ≠ pid) :
    lookupKey pid (plugin_version_map lines) = none := by
  cases hl : lookupKey pid (plugin_version_map lines) with
  | none => rfl
  | some v =>
    unfold plugin_version_map at hl
    rcases pvm_foldl_lookup lines [] pid v hl with h' | ⟨hv, hx⟩
    · simp [lookupKey] at h'
    · exact absurd hx (h v hv)

/-- C8 counterexample: an installed entry `git` with no version is emitted
verbatim as `git`, not defaulted to `git:latest`: with one active plugin
`git` and installed list `["git"]`, the output contains the line `git` and
no line `git:latest`. -/
theorem C8_counterexample :
    entryLine (plugin_version_map ["git"]) "git" = "git" ∧
    "git:latest" ∉ cleanedLines [("git", Reason.directlyUsed "jobs/a/config.xml")] ["git"] ∧
    "git" ∈ cleanedLines [("git", Reason.directlyUsed "jobs/a/config.xml")] ["git"] := by
  refine ⟨by decide, by decide, by decide⟩

/-- C8 amended: the cleaned output is the two header lines and a blank
followed, for each active plugin in ascending id order, by a comment line
giving its reason, its entry line and a blank; the entry line is the entry
of the installed list when the id appears there — emitted verbatim, so an
installed entry carrying no version is emitted without one rather than
defaulted to `latest` — and an active id absent from the installed list is
emitted as `id:latest`. -/
theorem C8_cleaned_output (active : ReasonMap) (installed_with_versions : List String)
    (pid : String) :
    cleanedLines active installed_with_versions =
      ["# Jenkins Plugin Analysis Report",
       "# Unused plugins have been removed. Kept plugins include a comment explaining why.",
       ""] ++ (sortedActiveIds active).flatMap (fun q =>
        [commentLine active q,
         entryLine (plugin_version_map installed_with_versions) q, ""]) ∧
    (sortedActiveIds active).Sorted (· ≤ ·) ∧
    (pid ∈ sortedActiveIds active ↔ containsKey active pid = true) ∧
    ((∃ line ∈ installed_with_versions, splitColonHead line = pid) →
      ∃ line ∈ installed_with_versions, splitColonHead line = pid ∧
        entryLine (plugin_version_map installed_with_versions) pid = line) ∧
    ((∀ line ∈ installed_with_versions, splitColonHead line ≠ pid) →
      entryLine (plugin_version_map installed_with_versions) pid = pid ++ ":latest") := by
  refine ⟨rfl, List.sorted_insertionSort (· ≤ ·) _, ?_, ?_, ?_⟩
  · unfold sortedActiveIds
    rw [(List.perm_insertionSort (· ≤ ·) _).mem_iff, List.mem_dedup,
      containsKey_iff_mem_keys]
  · intro hex
    have hck : containsKey (plugin_version_map installed_with_versions) pid = true := by
      unfold plugin_version_map
      exact pvm_foldl_contains installed_with_versions [] pid (Or.inr hex)
    rcases Option.isSome_iff_exists.mp hck with ⟨v, hv⟩
    have hv' := hv
    unfold plugin_version_map at hv'
    rcases pvm_foldl_lookup installed_with_versions [] pid v hv' with h' | ⟨hmem, hid⟩
    · simp [lookupKey] at h'
    · refine ⟨v, hmem, hid, ?_⟩
      unfold entryLine
      rw [hv]
      rfl
  · intro hnone
    unfold entryLine
    rw [pvm_lookup_none installed_with_versions pid hnone]
    rfl

/-- C8 witness: with active plugin `git` and installed list `["git"]`, the
entry emitted for `git` is an installed line with id `git`. -/
theorem C8_witness :
    ∃ line ∈ ["git"], splitColonHead line = "git" ∧
      entryLine (plugin_version_map ["git"]) "git" = line :=
  (C8_cleaned_output [("git", Reason.directlyUsed "f")] ["git"] "git").2.2.2.1
    ⟨"git", List.mem_cons_self "git" [], by decide⟩

/-- C10: a line of the installed-plugins file is dropped as a comment only
when its very first raw character is `#`: as a single line it then
contributes nothing; while a line whose `#` is preceded by whitespace is
not dropped — its stripped text is kept, and its text up to the first `:`
becomes an installed plugin id. -/
theorem C10_hash_only_at_first_char (lines : List String) (line : String)
    (hmem : line ∈ lines) (hns : startsWithHash line = false)
    (hne : pyStrip line ≠ "") :
    (∀ l : String, startsWithHash l = true → installed_plugins_with_versions [l] = []) ∧
    pyStrip line ∈ installed_plugins_with_versions lines ∧
    splitColonHead (pyStrip line) ∈ installed_plugins lines := by
  have hkeep : line ∈ lines.filter (fun l => pyStrip l ≠ "" && !startsWithHash l) := by
    rw [List.mem_filter]
    refine ⟨hmem, ?_⟩
    simp [hne, hns]
  refine ⟨?_, ?_, ?_⟩
  · intro l hl
    simp [installed_plugins_with_versions, hl]
  · exact List.mem_map_of_mem pyStrip hkeep
  · exact List.mem_map_of_mem splitColonHead (List.mem_map_of_mem pyStrip hkeep)

/-- C10 witness: the line `" # foo:1"` (hash preceded by a space) is kept,
stripped to `"# foo:1"`, and contributes the id `"# foo"`. -/
theorem C10_witness :
    (∀ l : String, startsWithHash l = true → installed_plugins_with_versions [l] = []) ∧
    pyStrip " # foo:1" ∈ installed_plugins_with_versions [" # foo:1"] ∧
    splitColonHead (pyStrip " # foo:1") ∈ installed_plugins [" # foo:1"] :=
  C10_hash_only_at_first_char [" # foo:1"] " # foo:1"
    (List.mem_cons_self " # foo:1" []) (by decide) (by decide)
